import Mathlib

/-!
Verification of the sun-map street-alignment pipeline.

Shallow embedding of the core numeric pipeline of the repository:
the geometry kernel (`src/utils/geometry.js`), the segment batcher
(`batchStraightSegments` and its helpers), the alignment scorer
(`src/modules/heatmap.js`), the LRU cache (`src/utils/cache.js`), the
solar boundary (`src/modules/solar.js`) and the optimal-day search
(`OptimalDayCalculator`).

Modelling conventions:
* JavaScript numbers are modelled as rationals (`ℚ`); the formulas at stake
  are exact field arithmetic (abs, min, subtraction, division), so `ℚ`
  represents them faithfully.
* `Number.prototype.toFixed(n)` is modelled by the integer `round (q * 10^n)`,
  which determines the produced string for the non-negative quantities used
  in cache keys.
* A JavaScript `Map` is modelled as an association list in insertion order
  (`mapGet`, `mapSet`, `mapDelete` below), mirroring `Map.prototype.get`,
  `set` (in-place update of an existing key, append of a fresh one) and
  `delete`.
* Stateful methods are modelled by explicit state passing; `Date.now()` is an
  explicit `now` argument.
* The Haversine distance `calculateDistance` evaluates transcendental
  functions; it enters the batcher only through the emitted `totalLength`
  field, so the batcher is parameterised by an arbitrary distance function
  `dist : Point → Point → ℚ` standing for it.
* Code that throws is modelled with `Option` (`none` = an exception).
-/

namespace SunMap

/-- `calculateStreetAlignment` from `src/utils/geometry.js` (lines 25-33):
`angleDiff = |streetBearing - sunAzimuth|`,
`bidirectionalDiff = min angleDiff |angleDiff - 180|`,
`normalizedDiff = min bidirectionalDiff (360 - bidirectionalDiff)`,
result `1 - normalizedDiff / 90`. -/
def calculateStreetAlignment (streetBearing sunAzimuth : ℚ) : ℚ :=
  let angleDiff := |streetBearing - sunAzimuth|
  let bidirectionalDiff := min angleDiff |angleDiff - 180|
  let normalizedDiff := min bidirectionalDiff (360 - bidirectionalDiff)
  1 - normalizedDiff / 90

/-- `calculateBearingDifference` from `src/utils/geometry.js` (lines 80-83):
circular absolute difference of two bearings. -/
def calculateBearingDifference (bearing1 bearing2 : ℚ) : ℚ :=
  let diff := |bearing1 - bearing2|
  min diff (360 - diff)

/-- C1 (counterexample). The claim says `calculateStreetAlignment` maps any
pair of inputs in `[0,360)` into `[0,1]`; at `streetBearing = 0`,
`sunAzimuth = 359` (both in `[0,360)`) the code returns `-89/90 < 0`. -/
theorem c1_counterexample :
    calculateStreetAlignment 0 359 = -89/90 ∧ calculateStreetAlignment 0 359 < 0 ∧
      (0:ℚ) ≤ 359 ∧ (359:ℚ) < 360 := by
  refine ⟨?_, ?_, by norm_num, by norm_num⟩ <;>
    norm_num [calculateStreetAlignment, min_def, abs_of_nonpos, abs_of_nonneg]

/-- C1 (amended). For inputs in `[0,360)` the alignment score lies in the
half-open interval `(-1, 1]`, and it lies in `[0,1]` exactly when
`|streetBearing - sunAzimuth| ≤ 270`. -/
theorem c1_amended (streetBearing sunAzimuth : ℚ)
    (hs0 : 0 ≤ streetBearing) (hs1 : streetBearing < 360)
    (ha0 : 0 ≤ sunAzimuth) (ha1 : sunAzimuth < 360) :
    (-1 < calculateStreetAlignment streetBearing sunAzimuth ∧
      calculateStreetAlignment streetBearing sunAzimuth ≤ 1) ∧
    (|streetBearing - sunAzimuth| ≤ 270 ↔
      0 ≤ calculateStreetAlignment streetBearing sunAzimuth) := by
  simp only [calculateStreetAlignment]
  rcases abs_cases (streetBearing - sunAzimuth) with ⟨h1, h2⟩ | ⟨h1, h2⟩ <;>
    rcases abs_cases (|streetBearing - sunAzimuth| - 180) with ⟨h3, h4⟩ | ⟨h3, h4⟩ <;>
    rw [h1] at h3 h4 ⊢ <;> rw [h3] <;>
    simp only [min_def] <;> split_ifs <;>
    exact ⟨⟨by linarith, by linarith⟩, ⟨fun h => by linarith, fun h => by linarith⟩⟩

/-- C1 (witness for the amended theorem, at `streetBearing = 0`,
`sunAzimuth = 90`: score `0`, difference `90 ≤ 270`). -/
theorem c1_witness :
    (-1 < calculateStreetAlignment 0 90 ∧ calculateStreetAlignment 0 90 ≤ 1) ∧
    (|(0:ℚ) - 90| ≤ 270 ↔ 0 ≤ calculateStreetAlignment 0 90) :=
  c1_amended 0 90 (by norm_num) (by norm_num) (by norm_num) (by norm_num)

/-! ### Optimal-day search data model (`OptimalDayCalculator`, unnamed module) -/

/-- One entry of a day's `alignments` array: `{type, sunAzimuth, alignmentScore}`,
with `type: 'sunrise' | 'sunset'` modelled as a `Bool` (`true` = sunrise). -/
structure DayAlignment where
  isSunrise : Bool
  sunAzimuth : ℚ
  alignmentScore : ℚ
deriving DecidableEq

/-- A day result of the optimal-day scan: `{date, dayOfYear, alignments,
bestAlignment}`. The `date` field is `dayOfYearToDate(dayOfYear, year)`,
determined by `dayOfYear` and the fixed search year, so it is not duplicated
here. -/
structure DayResult where
  dayOfYear : ℕ
  alignments : List DayAlignment
  bestAlignment : DayAlignment
deriving DecidableEq

/-- Comparator `(a, b) => b.bestAlignment.alignmentScore - a.bestAlignment.alignmentScore`
(sort descending by score) as a relation. -/
def byScoreDesc (a b : DayResult) : Prop :=
  b.bestAlignment.alignmentScore ≤ a.bestAlignment.alignmentScore

/-- Comparator `(a, b) => a.dayOfYear - b.dayOfYear` (sort ascending by day)
as a relation. -/
def byDayAsc (a b : DayResult) : Prop :=
  a.dayOfYear ≤ b.dayOfYear

instance : DecidableRel byScoreDesc := fun a b =>
  inferInstanceAs (Decidable (b.bestAlignment.alignmentScore ≤ a.bestAlignment.alignmentScore))

instance : DecidableRel byDayAsc := fun a b =>
  inferInstanceAs (Decidable (a.dayOfYear ≤ b.dayOfYear))

instance : IsTotal DayResult byScoreDesc :=
  ⟨fun a b => le_total b.bestAlignment.alignmentScore a.bestAlignment.alignmentScore⟩

instance : IsTrans DayResult byScoreDesc :=
  ⟨fun _ _ _ h1 h2 => le_trans h2 h1⟩

instance : IsTotal DayResult byDayAsc :=
  ⟨fun a b => Nat.le_total a.dayOfYear b.dayOfYear⟩

instance : IsTrans DayResult byDayAsc :=
  ⟨fun _ _ _ h1 h2 => Nat.le_trans h1 h2⟩

/-- The interior-maxima loop of `findLocalMaxima`
(`for i = 1 .. length-2: push sortedByDay[i] if its score strictly exceeds
both neighbours' scores`), expressed on the sliding 3-window. -/
def interiorMaxima : List DayResult → List DayResult
  | prev :: current :: next :: rest =>
      (if current.bestAlignment.alignmentScore > prev.bestAlignment.alignmentScore ∧
          current.bestAlignment.alignmentScore > next.bestAlignment.alignmentScore
        then [current] else []) ++ interiorMaxima (current :: next :: rest)
  | _ => []

/-- The first-day edge case of `findLocalMaxima`: the first day is pushed when
its score strictly exceeds the second day's score. -/
def firstDayMax : List DayResult → List DayResult
  | first :: second :: _ =>
      if first.bestAlignment.alignmentScore > second.bestAlignment.alignmentScore
        then [first] else []
  | _ => []

/-- Helper for the last-day edge case, reading the last two elements through
the reversed list. -/
def lastDayMaxAux : List DayResult → List DayResult
  | last :: secondLast :: _ =>
      if last.bestAlignment.alignmentScore > secondLast.bestAlignment.alignmentScore
        then [last] else []
  | _ => []

/-- The last-day edge case of `findLocalMaxima`: the last day is pushed when
its score strictly exceeds the second-to-last day's score. -/
def lastDayMax (l : List DayResult) : List DayResult :=
  lastDayMaxAux l.reverse

/-- `findLocalMaxima` from the `OptimalDayCalculator`: with fewer than three
day results, sort by descending score; otherwise sort chronologically, collect
interior strict local maxima plus the first/last-day edge cases (in that push
order), and sort the collected maxima by descending score. JavaScript
`Array.prototype.sort` is stable, as is `List.insertionSort`. -/
def findLocalMaxima (results : List DayResult) : List DayResult :=
  if results.length < 3 then
    List.insertionSort byScoreDesc results
  else
    let sortedByDay := List.insertionSort byDayAsc results
    let localMaxima :=
      interiorMaxima sortedByDay ++ firstDayMax sortedByDay ++ lastDayMax sortedByDay
    List.insertionSort byScoreDesc localMaxima

/-- Membership in the interior-maxima collection is exactly having a strictly
smaller score on both sides of a 3-window of the traversed list. -/
theorem mem_interiorMaxima (d : DayResult) (l : List DayResult) :
    d ∈ interiorMaxima l ↔
      ∃ l1 a c l2, l = l1 ++ a :: d :: c :: l2 ∧
        a.bestAlignment.alignmentScore < d.bestAlignment.alignmentScore ∧
        c.bestAlignment.alignmentScore < d.bestAlignment.alignmentScore := by
  induction l with
  | nil =>
    simp only [interiorMaxima, List.not_mem_nil, false_iff]
    rintro ⟨l1, a, c, l2, h, -, -⟩
    have h' := congrArg List.length h
    simp [List.length_append] at h'
    omega
  | cons x tl ih =>
    cases tl with
    | nil =>
      simp only [interiorMaxima, List.not_mem_nil, false_iff]
      rintro ⟨l1, a, c, l2, h, -, -⟩
      have h' := congrArg List.length h
      simp [List.length_append] at h'
      omega
    | cons y tl2 =>
      cases tl2 with
      | nil =>
        simp only [interiorMaxima, List.not_mem_nil, false_iff]
        rintro ⟨l1, a, c, l2, h, -, -⟩
        have h' := congrArg List.length h
        simp [List.length_append] at h'
        omega
      | cons z rest =>
        constructor
        · intro hmem
          rcases List.mem_append.1 hmem with h1 | h2
          · by_cases hP : y.bestAlignment.alignmentScore > x.bestAlignment.alignmentScore ∧
                y.bestAlignment.alignmentScore > z.bestAlignment.alignmentScore
            · rw [if_pos hP] at h1
              simp only [List.mem_singleton] at h1
              subst h1
              exact ⟨[], x, z, rest, rfl, hP.1, hP.2⟩
            · rw [if_neg hP] at h1
              simp at h1
          · rcases ih.1 h2 with ⟨l1, a, c, l2, heq, h3, h4⟩
            exact ⟨x :: l1, a, c, l2, by rw [List.cons_append, ← heq], h3, h4⟩
        · rintro ⟨l1, a, c, l2, heq, h3, h4⟩
          cases l1 with
          | nil =>
            simp only [List.nil_append, List.cons.injEq] at heq
            obtain ⟨rfl, rfl, rfl, rfl⟩ := heq
            exact List.mem_append.2 (Or.inl (by rw [if_pos ⟨h3, h4⟩]; exact List.mem_singleton.2 rfl))
          | cons w l1' =>
            simp only [List.cons_append, List.cons.injEq] at heq
            obtain ⟨rfl, heq'⟩ := heq
            exact List.mem_append.2 (Or.inr (ih.2 ⟨l1', a, c, l2, heq', h3, h4⟩))

/-- Membership in the first-day edge-case collection. -/
theorem mem_firstDayMax (d : DayResult) (l : List DayResult) :
    d ∈ firstDayMax l ↔
      ∃ b t, l = d :: b :: t ∧
        b.bestAlignment.alignmentScore < d.bestAlignment.alignmentScore := by
  cases l with
  | nil => simp [firstDayMax]
  | cons a tl =>
    cases tl with
    | nil => simp [firstDayMax]
    | cons b t =>
      constructor
      · intro hmem
        simp only [firstDayMax] at hmem
        split_ifs at hmem with hP
        · simp only [List.mem_singleton] at hmem
          subst hmem
          exact ⟨b, t, rfl, hP⟩
        · simp at hmem
      · rintro ⟨b', t', heq, h3⟩
        simp only [List.cons.injEq] at heq
        obtain ⟨rfl, rfl, rfl⟩ := heq
        simp only [firstDayMax, if_pos h3]
        exact List.mem_singleton.2 rfl

/-- Membership in the auxiliary last-day collection (on the reversed list). -/
theorem mem_lastDayMaxAux (d : DayResult) (l : List DayResult) :
    d ∈ lastDayMaxAux l ↔
      ∃ b t, l = d :: b :: t ∧
        b.bestAlignment.alignmentScore < d.bestAlignment.alignmentScore := by
  cases l with
  | nil => simp [lastDayMaxAux]
  | cons a tl =>
    cases tl with
    | nil => simp [lastDayMaxAux]
    | cons b t =>
      constructor
      · intro hmem
        simp only [lastDayMaxAux] at hmem
        split_ifs at hmem with hP
        · simp only [List.mem_singleton] at hmem
          subst hmem
          exact ⟨b, t, rfl, hP⟩
        · simp at hmem
      · rintro ⟨b', t', heq, h3⟩
        simp only [List.cons.injEq] at heq
        obtain ⟨rfl, rfl, rfl⟩ := heq
        simp only [lastDayMaxAux, if_pos h3]
        exact List.mem_singleton.2 rfl

/-- Membership in the last-day edge-case collection, phrased on the original
(unreversed) list. -/
theorem mem_lastDayMax (d : DayResult) (l : List DayResult) :
    d ∈ lastDayMax l ↔
      ∃ t b, l = t ++ [b, d] ∧
        b.bestAlignment.alignmentScore < d.bestAlignment.alignmentScore := by
  rw [lastDayMax, mem_lastDayMaxAux]
  constructor
  · rintro ⟨b, t, heq, h3⟩
    refine ⟨t.reverse, b, ?_, h3⟩
    have := congrArg List.reverse heq
    simp only [List.reverse_reverse] at this
    rw [this]
    simp
  · rintro ⟨t, b, heq, h3⟩
    refine ⟨b, t.reverse, ?_, h3⟩
    rw [heq]
    simp

/-- C2. For every chronologically ordered list of at least 3 day results,
`findLocalMaxima` returns exactly the days whose best score strictly exceeds
both immediate neighbours' scores, plus the first (resp. last) day when its
score strictly exceeds its single neighbour, and the output is sorted by
descending score. -/
theorem c2_find_local_maxima (l : List DayResult)
    (hchrono : l.Pairwise fun a b => a.dayOfYear < b.dayOfYear)
    (hlen : 3 ≤ l.length) :
    (∀ d, d ∈ findLocalMaxima l ↔
      ((∃ l1 a c l2, l = l1 ++ a :: d :: c :: l2 ∧
          a.bestAlignment.alignmentScore < d.bestAlignment.alignmentScore ∧
          c.bestAlignment.alignmentScore < d.bestAlignment.alignmentScore) ∨
        (∃ b t, l = d :: b :: t ∧
          b.bestAlignment.alignmentScore < d.bestAlignment.alignmentScore) ∨
        (∃ t b, l = t ++ [b, d] ∧
          b.bestAlignment.alignmentScore < d.bestAlignment.alignmentScore))) ∧
      (findLocalMaxima l).Pairwise byScoreDesc := by
  have hsorted : List.Sorted byDayAsc l := hchrono.imp fun h => le_of_lt h
  have hid : List.insertionSort byDayAsc l = l := hsorted.insertionSort_eq
  have hunfold : findLocalMaxima l =
      List.insertionSort byScoreDesc
        (interiorMaxima l ++ firstDayMax l ++ lastDayMax l) := by
    simp only [findLocalMaxima]
    rw [if_neg (by omega), hid]
  constructor
  · intro d
    rw [hunfold, List.mem_insertionSort, List.mem_append, List.mem_append,
      mem_interiorMaxima, mem_firstDayMax, mem_lastDayMax]
    exact or_assoc
  · rw [hunfold]
    exact List.sorted_insertionSort byScoreDesc _

/-- A synthetic day result with a single sunrise alignment of the given
score. -/
def exDay (n : ℕ) (s : ℚ) : DayResult := ⟨n, [⟨true, 0, s⟩], ⟨true, 0, s⟩⟩

/-- The 5-day synthetic score sequence `[0.1, 0.5, 0.9, 0.4, 0.2]` of the
specification. -/
def ex5 : List DayResult :=
  [exDay 1 (1/10), exDay 2 (5/10), exDay 3 (9/10), exDay 4 (4/10), exDay 5 (2/10)]

/-- C2 (witness): on the 5-day score sequence `[0.1, 0.5, 0.9, 0.4, 0.2]`,
`findLocalMaxima` returns exactly the one day with score `0.9`. -/
theorem c2_witness :
    findLocalMaxima ex5 = [exDay 3 (9/10)] ∧ exDay 3 (9/10) ∈ findLocalMaxima ex5 := by
  constructor
  · norm_num [findLocalMaxima, ex5, exDay, interiorMaxima, firstDayMax, lastDayMax,
      lastDayMaxAux, List.insertionSort, List.orderedInsert, byScoreDesc, byDayAsc]
  · exact ((c2_find_local_maxima ex5 (by norm_num [ex5, exDay]) (by norm_num [ex5])).1
      (exDay 3 (9/10))).2
      (Or.inl ⟨[exDay 1 (1/10)], exDay 2 (5/10), exDay 4 (4/10), [exDay 5 (2/10)], rfl,
        by norm_num [exDay], by norm_num [exDay]⟩)

/-! ### JavaScript `Map` model and `toFixed` -/

/-- `Map.prototype.get`: the value stored under the first (and, in any state a
`Map` can reach, only) entry with the given key. -/
def mapGet [DecidableEq κ] : List (κ × α) → κ → Option α
  | [], _ => none
  | (k2, v) :: rest, k => if k2 = k then some v else mapGet rest k

/-- `Map.prototype.set`: update an existing key in place (keeping its
position in insertion order) or append a fresh key at the end. -/
def mapSet [DecidableEq κ] : List (κ × α) → κ → α → List (κ × α)
  | [], k, v => [(k, v)]
  | (k2, v2) :: rest, k, v =>
      if k2 = k then (k2, v) :: rest else (k2, v2) :: mapSet rest k v

/-- `Map.prototype.delete`: remove the entry with the given key. -/
def mapDelete [DecidableEq κ] : List (κ × α) → κ → List (κ × α)
  | [], _ => []
  | (k2, v2) :: rest, k => if k2 = k then rest else (k2, v2) :: mapDelete rest k

theorem mapGet_mapSet_self [DecidableEq κ] (m : List (κ × α)) (k : κ) (v : α) :
    mapGet (mapSet m k v) k = some v := by
  induction m with
  | nil => simp [mapGet, mapSet]
  | cons e rest ih =>
    obtain ⟨k2, v2⟩ := e
    by_cases h : k2 = k <;> simp [mapGet, mapSet, h, ih]

theorem mapGet_mapSet_ne [DecidableEq κ] (m : List (κ × α)) (k k' : κ) (v : α)
    (hne : k ≠ k') : mapGet (mapSet m k v) k' = mapGet m k' := by
  induction m with
  | nil => simp [mapGet, mapSet, hne]
  | cons e rest ih =>
    obtain ⟨k2, v2⟩ := e
    by_cases h : k2 = k
    · subst h
      simp [mapGet, mapSet, hne]
    · by_cases h' : k2 = k' <;> simp [mapGet, mapSet, h, h', Ne.symm hne, ih]

theorem mapGet_mapDelete_ne [DecidableEq κ] (m : List (κ × α)) (k k' : κ)
    (hne : k ≠ k') : mapGet (mapDelete m k) k' = mapGet m k' := by
  induction m with
  | nil => simp [mapDelete]
  | cons e rest ih =>
    obtain ⟨k2, v2⟩ := e
    by_cases h : k2 = k
    · subst h
      simp [mapGet, mapDelete, hne, ih]
    · by_cases h' : k2 = k' <;> simp [mapGet, mapDelete, h, h', Ne.symm hne, ih]

theorem mapGet_eq_none_iff [DecidableEq κ] (m : List (κ × α)) (k : κ) :
    mapGet m k = none ↔ k ∉ m.map Prod.fst := by
  induction m with
  | nil => simp [mapGet]
  | cons e rest ih =>
    obtain ⟨k2, v2⟩ := e
    by_cases h : k2 = k <;> simp [mapGet, h, ih, Ne.symm]

theorem keys_mapSet [DecidableEq κ] (m : List (κ × α)) (k : κ) (v : α) :
    (mapSet m k v).map Prod.fst =
      if k ∈ m.map Prod.fst then m.map Prod.fst else m.map Prod.fst ++ [k] := by
  induction m with
  | nil => simp [mapSet]
  | cons e rest ih =>
    obtain ⟨k2, v2⟩ := e
    by_cases h : k2 = k
    · simp [mapSet, h]
    · simp only [mapSet, if_neg h, List.map_cons, ih, List.mem_cons]
      by_cases h2 : k ∈ rest.map Prod.fst <;>
        simp [h2, Ne.symm h, List.cons_append]

theorem nodupKeys_mapSet [DecidableEq κ] (m : List (κ × α)) (k : κ) (v : α)
    (hnodup : (m.map Prod.fst).Nodup) : ((mapSet m k v).map Prod.fst).Nodup := by
  rw [keys_mapSet]
  by_cases h : k ∈ m.map Prod.fst
  · simpa [h] using hnodup
  · simp only [if_neg h]
    simpa [List.nodup_append, h] using hnodup

theorem mapDelete_sublist [DecidableEq κ] (m : List (κ × α)) (k : κ) :
    (mapDelete m k).Sublist m := by
  induction m with
  | nil => simp [mapDelete]
  | cons e rest ih =>
    obtain ⟨k2, v2⟩ := e
    by_cases h : k2 = k
    · simp only [mapDelete, if_pos h]
      exact List.sublist_cons_self (k2, v2) rest
    · simpa [mapDelete, h] using ih.cons₂ (k2, v2)

theorem nodupKeys_mapDelete [DecidableEq κ] (m : List (κ × α)) (k : κ)
    (hnodup : (m.map Prod.fst).Nodup) : ((mapDelete m k).map Prod.fst).Nodup :=
  hnodup.sublist ((mapDelete_sublist m k).map Prod.fst)

theorem mapGet_mapDelete_self [DecidableEq κ] (m : List (κ × α)) (k : κ)
    (hnodup : (m.map Prod.fst).Nodup) : mapGet (mapDelete m k) k = none := by
  rw [mapGet_eq_none_iff]
  induction m with
  | nil => simp [mapDelete]
  | cons e rest ih =>
    obtain ⟨k2, v2⟩ := e
    simp only [List.map_cons, List.nodup_cons] at hnodup
    by_cases h : k2 = k
    · subst h
      simpa [mapDelete] using hnodup.1
    · simp only [mapDelete, if_neg h, List.map_cons, List.mem_cons]
      rintro (h2 | h2)
      · exact h h2.symm
      · exact ih hnodup.2 h2

/-- `q.toFixed(digits)` as the rounded integer `round (q * 10^digits)`, which
determines the string produced by `Number.prototype.toFixed` for the
non-negative magnitudes used in the cache keys of this code base. -/
def toFixed (digits : ℕ) (q : ℚ) : ℤ := round (q * 10 ^ digits)

/-! ### `OptimalDayCalculator.findOptimalDay` (C5, C7) -/

/-- `isLeapYear` from the `OptimalDayCalculator`. -/
def isLeapYear (year : ℕ) : Bool :=
  (year % 4 == 0 && year % 100 != 0) || year % 400 == 0

/-- `daysInYear = isLeapYear(searchYear) ? 366 : 365`. -/
def daysInYear (year : ℕ) : ℕ := if isLeapYear year then 366 else 365

/-- `dayOfYearToDate(dayOfYear, year)` builds `new Date(year, 0, dayOfYear)`;
for a day of year in `[1, daysInYear]` that date is uniquely determined by
the pair. -/
def dayOfYearToDate (dayOfYear year : ℕ) : ℕ × ℕ := (year, dayOfYear)

/-- The `alignments.reduce((best, current) => current.alignmentScore >
best.alignmentScore ? current : best)` step that picks a day's best
alignment (keeping the earlier entry on ties). -/
def reduceBest (best : DayAlignment) : List DayAlignment → DayAlignment
  | [] => best
  | current :: rest =>
      reduceBest
        (if current.alignmentScore > best.alignmentScore then current else best) rest

/-- One iteration of the per-day loop of `findOptimalDay`: compute the
sunrise/sunset alignments that are enabled and whose solar computation does
not throw (`sunAz … = none` models `getSunAzimuth` throwing — the `catch`
branch logs and skips), and produce the day result only when at least one
alignment was computed. -/
def computeDay (sunAz : ℕ × ℕ → ℚ → ℚ → Bool → Option ℚ)
    (streetBearing lat lng : ℚ) (year : ℕ)
    (includeSunrise includeSunset : Bool) (dayOfYear : ℕ) : Option DayResult :=
  let date := dayOfYearToDate dayOfYear year
  let alignments :=
    (if includeSunrise then
      match sunAz date lat lng true with
      | some az => [⟨true, az, calculateStreetAlignment streetBearing az⟩]
      | none => []
    else []) ++
    (if includeSunset then
      match sunAz date lat lng false with
      | some az => [⟨false, az, calculateStreetAlignment streetBearing az⟩]
      | none => []
    else [])
  match alignments with
  | [] => none
  | a :: rest => some ⟨dayOfYear, a :: rest, reduceBest a rest⟩

/-- The per-day scan of `findOptimalDay`: days `1 .. daysInYear`, keeping
only days with at least one computed alignment. -/
def collectResults (sunAz : ℕ × ℕ → ℚ → ℚ → Bool → Option ℚ)
    (streetBearing lat lng : ℚ) (year : ℕ)
    (includeSunrise includeSunset : Bool) : List DayResult :=
  (List.range' 1 (daysInYear year)).filterMap
    (computeDay sunAz streetBearing lat lng year includeSunrise includeSunset)

/-- `calculateAverageAlignment` from the `OptimalDayCalculator`: `0` for an
empty result set, otherwise the mean of the best scores. -/
def calculateAverageAlignment (results : List DayResult) : ℚ :=
  if results.length = 0 then 0
  else
    (results.foldl (fun sum day => sum + day.bestAlignment.alignmentScore) 0) /
      results.length

/-- The statistics record of `calculateStatistics`. -/
structure Statistics where
  totalDays : ℕ
  excellent : ℕ
  good : ℕ
  fair : ℕ
  poor : ℕ
deriving DecidableEq

/-- `calculateStatistics` from the `OptimalDayCalculator`: a zeroed record
for an empty result set, otherwise a score-band histogram. -/
def calculateStatistics (results : List DayResult) : Statistics :=
  if results.length = 0 then ⟨0, 0, 0, 0, 0⟩
  else
    results.foldl (fun stats day =>
      let score := day.bestAlignment.alignmentScore
      if score ≥ 9/10 then { stats with excellent := stats.excellent + 1 }
      else if score ≥ 7/10 then { stats with good := stats.good + 1 }
      else if score ≥ 5/10 then { stats with fair := stats.fair + 1 }
      else { stats with poor := stats.poor + 1 })
      ⟨results.length, 0, 0, 0, 0⟩

/-- The result object of `findOptimalDay` (the `searchParams` field is split
into its two flags). -/
structure OptimalResult where
  streetBearing : ℚ
  year : ℕ
  includeSunrise : Bool
  includeSunset : Bool
  bestDay : Option DayResult
  topDays : List DayResult
  averageAlignment : ℚ
  statistics : Statistics
  totalLocalMaxima : ℕ
deriving DecidableEq

/-- The cache key of `findOptimalDay`:
`` `${streetBearing.toFixed(4)}_${lat.toFixed(6)}_${lng.toFixed(6)}_${searchYear}_${includeSunrise}_${includeSunset}` ``.
The underscore-joined string is determined by (and determines) this tuple. -/
def optimalDayKey (streetBearing lat lng : ℚ) (year : ℕ)
    (includeSunrise includeSunset : Bool) : ℤ × ℤ × ℤ × ℕ × Bool × Bool :=
  (toFixed 4 streetBearing, toFixed 6 lat, toFixed 6 lng, year,
    includeSunrise, includeSunset)

/-- The mutable state of an `OptimalDayCalculator` (its `this.cache` `Map`). -/
structure OptimalDayCalculator where
  cache : List ((ℤ × ℤ × ℤ × ℕ × Bool × Bool) × OptimalResult)

/-- `findOptimalDay` from the `OptimalDayCalculator`: answer from the result
cache when the key is present, otherwise scan every day of the year, extract
local maxima, build the result object and cache it. The external
`solarCalculator.getSunAzimuth` is the oracle `sunAz` (with `none` modelling
a thrown exception); the periodic `await`-yield has no effect on the
computed value. Returns the result and the updated calculator state. -/
def findOptimalDay (calculator : OptimalDayCalculator)
    (sunAz : ℕ × ℕ → ℚ → ℚ → Bool → Option ℚ)
    (streetBearing lat lng : ℚ) (year : ℕ)
    (includeSunrise includeSunset : Bool) : OptimalResult × OptimalDayCalculator :=
  let cacheKey := optimalDayKey streetBearing lat lng year includeSunrise includeSunset
  match mapGet calculator.cache cacheKey with
  | some cached => (cached, calculator)
  | none =>
    let results := collectResults sunAz streetBearing lat lng year
      includeSunrise includeSunset
    let localMaxima := findLocalMaxima results
    let optimalResult : OptimalResult :=
      { streetBearing := streetBearing
        year := year
        includeSunrise := includeSunrise
        includeSunset := includeSunset
        bestDay := localMaxima.head?
        topDays := localMaxima.take 5
        averageAlignment := calculateAverageAlignment results
        statistics := calculateStatistics results
        totalLocalMaxima := localMaxima.length }
    (optimalResult, ⟨mapSet calculator.cache cacheKey optimalResult⟩)

/-- C5. `findOptimalDay` caches its full result under the key combining
street bearing, rounded latitude/longitude, year and the sunrise/sunset
flags: after any call, the returned object is stored under that key, and a
repeat query with identical parameters returns exactly the cached object
with an unchanged cache — independently of the solar oracle, i.e. without
recomputing the per-day scan. -/
theorem c5_result_cached (calculator : OptimalDayCalculator)
    (sunAz : ℕ × ℕ → ℚ → ℚ → Bool → Option ℚ)
    (streetBearing lat lng : ℚ) (year : ℕ) (includeSunrise includeSunset : Bool) :
    mapGet (findOptimalDay calculator sunAz streetBearing lat lng year
        includeSunrise includeSunset).2.cache
      (optimalDayKey streetBearing lat lng year includeSunrise includeSunset) =
      some (findOptimalDay calculator sunAz streetBearing lat lng year
        includeSunrise includeSunset).1 ∧
    ∀ sunAz2,
      findOptimalDay
        (findOptimalDay calculator sunAz streetBearing lat lng year
          includeSunrise includeSunset).2
        sunAz2 streetBearing lat lng year includeSunrise includeSunset =
      findOptimalDay calculator sunAz streetBearing lat lng year
        includeSunrise includeSunset := by
  simp only [findOptimalDay]
  rcases hcase : mapGet calculator.cache
      (optimalDayKey streetBearing lat lng year includeSunrise includeSunset) with
    - | cached
  · simp only []
    refine ⟨mapGet_mapSet_self .., fun sunAz2 => ?_⟩
    rw [mapGet_mapSet_self]
  · simp only []
    exact ⟨hcase, fun sunAz2 => by rw [hcase]⟩

/-- A produced day result carries the day of year it was computed for. -/
theorem computeDay_dayOfYear (sunAz : ℕ × ℕ → ℚ → ℚ → Bool → Option ℚ)
    (streetBearing lat lng : ℚ) (year : ℕ)
    (includeSunrise includeSunset : Bool) (d : ℕ) (r : DayResult)
    (h : computeDay sunAz streetBearing lat lng year includeSunrise includeSunset d =
      some r) : r.dayOfYear = d := by
  simp only [computeDay] at h
  rcases halign : (if includeSunrise then
      match sunAz (dayOfYearToDate d year) lat lng true with
      | some az => [(⟨true, az, calculateStreetAlignment streetBearing az⟩ : DayAlignment)]
      | none => []
    else []) ++
    (if includeSunset then
      match sunAz (dayOfYearToDate d year) lat lng false with
      | some az => [(⟨false, az, calculateStreetAlignment streetBearing az⟩ : DayAlignment)]
      | none => []
    else []) with - | ⟨a, rest⟩
  · rw [halign] at h
    simp at h
  · rw [halign] at h
    simp only [Option.some.injEq] at h
    rw [← h]

/-- A day none of whose enabled solar computations succeeds yields no day
result at all. -/
theorem computeDay_eq_none (sunAz : ℕ × ℕ → ℚ → ℚ → Bool → Option ℚ)
    (streetBearing lat lng : ℚ) (year : ℕ)
    (includeSunrise includeSunset : Bool) (d : ℕ)
    (hrise : includeSunrise = true → sunAz (dayOfYearToDate d year) lat lng true = none)
    (hset : includeSunset = true → sunAz (dayOfYearToDate d year) lat lng false = none) :
    computeDay sunAz streetBearing lat lng year includeSunrise includeSunset d = none := by
  cases includeSunrise <;> cases includeSunset
  · simp [computeDay]
  · simp [computeDay, hset rfl]
  · simp [computeDay, hrise rfl]
  · simp [computeDay, hrise rfl, hset rfl]

/-- C7. A day for which every enabled sunrise/sunset computation throws is
omitted from the collected day-result set (not recorded with score 0); and
when every day fails (and there is no cached answer), `findOptimalDay` still
returns normally, with a `null` best day, no top days and zero local
maxima. -/
theorem c7_failed_days (sunAz : ℕ × ℕ → ℚ → ℚ → Bool → Option ℚ)
    (streetBearing lat lng : ℚ) (year : ℕ) (includeSunrise includeSunset : Bool) :
    (∀ d : ℕ,
      (includeSunrise = true → sunAz (dayOfYearToDate d year) lat lng true = none) →
      (includeSunset = true → sunAz (dayOfYearToDate d year) lat lng false = none) →
      ∀ r ∈ collectResults sunAz streetBearing lat lng year includeSunrise includeSunset,
        r.dayOfYear ≠ d) ∧
    (∀ calculator : OptimalDayCalculator,
      (∀ date isSunrise, sunAz date lat lng isSunrise = none) →
      mapGet calculator.cache
        (optimalDayKey streetBearing lat lng year includeSunrise includeSunset) = none →
      (findOptimalDay calculator sunAz streetBearing lat lng year
          includeSunrise includeSunset).1.bestDay = none ∧
      (findOptimalDay calculator sunAz streetBearing lat lng year
          includeSunrise includeSunset).1.topDays = [] ∧
      (findOptimalDay calculator sunAz streetBearing lat lng year
          includeSunrise includeSunset).1.totalLocalMaxima = 0) := by
  constructor
  · intro d hrise hset r hmem
    rcases List.mem_filterMap.1 hmem with ⟨a, -, hsome⟩
    intro hEq
    rw [computeDay_dayOfYear sunAz streetBearing lat lng year
      includeSunrise includeSunset a r hsome] at hEq
    subst hEq
    rw [computeDay_eq_none sunAz streetBearing lat lng year
      includeSunrise includeSunset a hrise hset] at hsome
    exact Option.noConfusion hsome
  · intro calculator hfail hmiss
    have hempty :
        collectResults sunAz streetBearing lat lng year includeSunrise includeSunset = [] :=
      List.filterMap_eq_nil_iff.mpr fun a _ =>
        computeDay_eq_none sunAz streetBearing lat lng year includeSunrise includeSunset a
          (fun _ => hfail _ _) (fun _ => hfail _ _)
    simp only [findOptimalDay, hmiss, hempty, findLocalMaxima]
    simp

/-- C7 (witness): with a solar oracle that always throws, day 1 is absent
from the collected results, and a fresh search returns a `null` best day. -/
theorem c7_witness :
    (∀ r ∈ collectResults (fun _ _ _ _ => none) 0 0 0 2023 true true,
      r.dayOfYear ≠ 1) ∧
    (findOptimalDay ⟨[]⟩ (fun _ _ _ _ => none) 0 0 0 2023 true true).1.bestDay = none :=
  ⟨(c7_failed_days (fun _ _ _ _ => none) 0 0 0 2023 true true).1 1
      (fun _ => rfl) (fun _ => rfl),
    ((c7_failed_days (fun _ _ _ _ => none) 0 0 0 2023 true true).2 ⟨[]⟩
      (fun _ _ => rfl) rfl).1⟩

/-! ### Segment batcher (`batchStraightSegments`, C3, C6) -/

/-- A geographic coordinate `{lat, lon}`. -/
structure Point where
  lat : ℚ
  lon : ℚ
deriving DecidableEq, Inhabited

/-- A unit street segment as produced by `processStreetSegments`
(`end` is a Lean keyword, hence `endPt`). -/
structure StreetSegment where
  start : Point
  endPt : Point
  bearing : ℚ
  osmId : ℕ
  highway : Option String
  segmentIndex : ℕ
deriving DecidableEq, Inhabited

/-- The batching configuration consumed by `batchStraightSegments`. -/
structure BatchConfig where
  bearingTolerance : ℚ
  minBatchLength : ℚ
  maxBearingDrift : ℚ
  requireBatching : Bool

/-- The transient batch object of `createBidirectionalBatch`. -/
structure Batch where
  constituents : List ℕ
  startIndex : ℕ
  endIndex : ℕ
deriving DecidableEq

/-- A Representative Segment as built by `createRepresentativeSegment`. -/
structure RepresentativeSegment where
  start : Point
  endPt : Point
  bearing : ℚ
  osmId : ℕ
  highway : Option String
  segmentCount : ℕ
  totalLength : ℚ
  constituents : List ℕ
deriving DecidableEq

/-- The forward `while` loop of `createBidirectionalBatch`: starting from
`currentIndex` with accumulated drift `totalDrift`, collect the indices of
the successively included next segments. The fuel argument only bounds the
iteration count; `segments.length` steps are always enough because every
step moves `currentIndex + 1` closer to `segments.length`. -/
def forwardExtend (segments : List StreetSegment)
    (referenceBearing bearingTolerance maxBearingDrift : ℚ) :
    ℕ → ℚ → ℕ → List ℕ
  | _, _, 0 => []
  | currentIndex, totalDrift, fuel + 1 =>
    if currentIndex + 1 < segments.length then
      let nextSegment := segments.getD (currentIndex + 1) default
      let bearingDiff := calculateBearingDifference referenceBearing nextSegment.bearing
      if bearingDiff ≤ bearingTolerance ∧ totalDrift + bearingDiff ≤ maxBearingDrift then
        (currentIndex + 1) ::
          forwardExtend segments referenceBearing bearingTolerance maxBearingDrift
            (currentIndex + 1) (totalDrift + bearingDiff) fuel
      else []
    else []

/-- The backward `while` loop of `createBidirectionalBatch`, collecting the
included indices in discovery order (descending); it recurses structurally
on `currentIndex`. -/
def backwardExtend (segments : List StreetSegment)
    (referenceBearing bearingTolerance maxBearingDrift : ℚ) :
    ℕ → ℚ → List ℕ
  | 0, _ => []
  | currentIndex + 1, totalDrift =>
    let prevSegment := segments.getD currentIndex default
    let bearingDiff := calculateBearingDifference referenceBearing prevSegment.bearing
    if bearingDiff ≤ bearingTolerance ∧ totalDrift + bearingDiff ≤ maxBearingDrift then
      currentIndex ::
        backwardExtend segments referenceBearing bearingTolerance maxBearingDrift
          currentIndex (totalDrift + bearingDiff)
    else []

/-- `createBidirectionalBatch` from `src/utils/geometry.js`: grow a batch
from the seed in both directions against the seed's bearing, with an
independent cumulative-drift counter per direction. The `unshift`-built
constituent list is the reversed backward run, then the seed, then the
forward run. -/
def createBidirectionalBatch (startIndex : ℕ) (segments : List StreetSegment)
    (bearingTolerance maxBearingDrift : ℚ) : Batch :=
  let referenceBearing := (segments.getD startIndex default).bearing
  let fwd := forwardExtend segments referenceBearing bearingTolerance maxBearingDrift
    startIndex 0 segments.length
  let bwd := backwardExtend segments referenceBearing bearingTolerance maxBearingDrift
    startIndex 0
  { constituents := bwd.reverse ++ startIndex :: fwd
    startIndex := bwd.getLastD startIndex
    endIndex := fwd.getLastD startIndex }

/-- `createRepresentativeSegment` from `src/utils/geometry.js`, with the
Haversine `calculateDistance` abstracted as `dist`. -/
def createRepresentativeSegment (dist : Point → Point → ℚ) (batch : Batch)
    (segments : List StreetSegment) : RepresentativeSegment :=
  let firstSegment := segments.getD batch.startIndex default
  let lastSegment := segments.getD batch.endIndex default
  let acc := batch.constituents.foldl
    (fun (acc : ℚ × ℚ) index =>
      let segment := segments.getD index default
      let segmentLength := dist segment.start segment.endPt
      (acc.1 + segmentLength, acc.2 + segment.bearing * segmentLength))
    (0, 0)
  let representativeBearing := if acc.1 > 0 then acc.2 / acc.1 else firstSegment.bearing
  { start := firstSegment.start
    endPt := lastSegment.endPt
    bearing := representativeBearing
    osmId := firstSegment.osmId
    highway := firstSegment.highway
    segmentCount := batch.constituents.length
    totalLength := dist firstSegment.start lastSegment.endPt
    constituents := batch.constituents }

/-- The `` `${osmId}_${segmentIndex}` `` identity string of a unit segment,
as the pair it encodes (the segment index carries no underscore, so the
string determines the pair). -/
def segmentId (segments : List StreetSegment) (index : ℕ) : ℕ × ℕ :=
  ((segments.getD index default).osmId, (segments.getD index default).segmentIndex)

/-- The record of one non-skipped iteration of the `batchStraightSegments`
loop: the seed index, the grown batch, the representative segment, and
whether the filtering criteria admitted it into the output. -/
structure BatchRecord where
  seed : ℕ
  batch : Batch
  rep : RepresentativeSegment
  emitted : Bool
deriving DecidableEq

/-- One iteration of the `batchStraightSegments` loop over segment index `i`,
threading the `processedSegments` set (as the list of claimed identity
pairs) and the run's batch records. -/
def batchStep (segments : List StreetSegment) (config : BatchConfig)
    (dist : Point → Point → ℚ) (st : List (ℕ × ℕ) × List BatchRecord) (i : ℕ) :
    List (ℕ × ℕ) × List BatchRecord :=
  if segmentId segments i ∈ st.1 then st
  else
    let batch := createBidirectionalBatch i segments
      config.bearingTolerance config.maxBearingDrift
    let processed := st.1 ++ batch.constituents.map (segmentId segments)
    let representativeSegment := createRepresentativeSegment dist batch segments
    let meetsLengthRequirement :=
      decide (config.minBatchLength ≤ representativeSegment.totalLength)
    let meetsBatchingRequirement :=
      !config.requireBatching || decide (2 ≤ batch.constituents.length)
    let record : BatchRecord :=
      { seed := i
        batch := batch
        rep := representativeSegment
        emitted := meetsLengthRequirement && meetsBatchingRequirement }
    (processed, st.2 ++ [record])

/-- The full `batchStraightSegments` loop, recording every batch it grows. -/
def batchRun (segments : List StreetSegment) (config : BatchConfig)
    (dist : Point → Point → ℚ) : List (ℕ × ℕ) × List BatchRecord :=
  (List.range segments.length).foldl (batchStep segments config dist) ([], [])

/-- `batchStraightSegments` from `src/utils/geometry.js`: the representative
segments of the batches that met the filtering criteria, in loop order. -/
def batchStraightSegments (segments : List StreetSegment) (config : BatchConfig)
    (dist : Point → Point → ℚ) : List RepresentativeSegment :=
  ((batchRun segments config dist).2.filter (fun r => r.emitted)).map (fun r => r.rep)

/-- A `foldl` preserves any invariant its step preserves. -/
theorem foldl_invariant {σ β : Type*} (step : σ → β → σ) (P : σ → Prop)
    (hstep : ∀ s b, P s → P (step s b)) :
    ∀ (l : List β) (s : σ), P s → P (l.foldl step s)
  | [], _, hs => hs
  | b :: l, s, hs => foldl_invariant step P hstep l (step s b) (hstep s b hs)

/-- C6. Every Representative Segment emitted by `batchStraightSegments`
meets the minimum-length filter, and meets `segmentCount ≥ 2` whenever
`requireBatching` is set; a batch failing either condition is never in the
output. -/
theorem c6_emitted_meets_filters (segments : List StreetSegment)
    (config : BatchConfig) (dist : Point → Point → ℚ)
    (rep : RepresentativeSegment)
    (hmem : rep ∈ batchStraightSegments segments config dist) :
    config.minBatchLength ≤ rep.totalLength ∧
      (config.requireBatching = true → 2 ≤ rep.segmentCount) := by
  have hinv : ∀ r ∈ (batchRun segments config dist).2, r.emitted = true →
      config.minBatchLength ≤ r.rep.totalLength ∧
        (config.requireBatching = true → 2 ≤ r.rep.segmentCount) := by
    refine foldl_invariant (batchStep segments config dist)
      (fun st => ∀ r ∈ st.2, r.emitted = true →
        config.minBatchLength ≤ r.rep.totalLength ∧
          (config.requireBatching = true → 2 ≤ r.rep.segmentCount))
      (fun st i hs => ?_) (List.range segments.length) ([], []) (by simp)
    simp only [batchStep]
    split
    · exact hs
    · intro r hr
      rcases List.mem_append.1 hr with h1 | h1
      · exact hs r h1
      · simp only [List.mem_singleton] at h1
        subst h1
        intro hem
        simp only [Bool.and_eq_true, Bool.or_eq_true, Bool.not_eq_true',
          decide_eq_true_eq] at hem
        refine ⟨hem.1, fun hreq => ?_⟩
        rcases hem.2 with h2 | h2
        · rw [hreq] at h2
          cases h2
        · simpa [createRepresentativeSegment] using h2
  simp only [batchStraightSegments, List.mem_map, List.mem_filter] at hmem
  rcases hmem with ⟨r, ⟨hr_mem, hr_em⟩, rfl⟩
  exact hinv r hr_mem hr_em

/-- A unit segment with the given bearing, way id `1` and the given segment
index. -/
def exSeg (b : ℚ) (idx : ℕ) : StreetSegment :=
  ⟨⟨0, idx⟩, ⟨0, idx + 1⟩, b, 1, none, idx⟩

/-- Two collinear unit segments: a batch that passes every filter. -/
def exSegs6 : List StreetSegment := [exSeg 0 0, exSeg 0 1]

/-- C6 (witness): on two collinear segments with `minBatchLength = 1`,
`requireBatching = true` and constant distance `5`, the emitted batch meets
both filters. -/
theorem c6_witness :
    (1 : ℚ) ≤ (⟨⟨0, 0⟩, ⟨0, 2⟩, 0, 1, none, 2, 5, [0, 1]⟩ : RepresentativeSegment).totalLength ∧
      ((⟨1, 1, 2, true⟩ : BatchConfig).requireBatching = true →
        2 ≤ (⟨⟨0, 0⟩, ⟨0, 2⟩, 0, 1, none, 2, 5, [0, 1]⟩ : RepresentativeSegment).segmentCount) :=
  c6_emitted_meets_filters exSegs6 ⟨1, 1, 2, true⟩ (fun _ _ => 5)
    ⟨⟨0, 0⟩, ⟨0, 2⟩, 0, 1, none, 2, 5, [0, 1]⟩
    (by norm_num [batchStraightSegments, batchRun, batchStep, createBidirectionalBatch,
      forwardExtend, backwardExtend, createRepresentativeSegment,
      calculateBearingDifference, segmentId, exSegs6, exSeg,
      List.range_succ, min_def, abs_of_nonpos, abs_of_nonneg])

/-- The three-segment polyline (bearings 0°, 6°, 12°, way id 1) on which two
batches overlap. -/
def exSegs3 : List StreetSegment := [exSeg 0 0, exSeg 6 1, exSeg 12 2]

/-- The batching configuration for the overlap example: tolerance 10°, no
length minimum, drift cap 10°, batching not required. -/
def exCfg3 : BatchConfig := ⟨10, 0, 10, false⟩

/-- C3 (counterexample). With bearings `[0°, 6°, 12°]`, tolerance 10° and
drift cap 10°, the seed-0 batch claims unit segments `(1,0), (1,1)` and the
seed-2 batch grows backward and claims `(1,1), (1,2)`: the identity `(1,1)`
is claimed by both emitted Representative Segments, refuting pairwise
disjointness of the constituent sets. -/
theorem c3_counterexample :
    ((batchStraightSegments exSegs3 exCfg3 (fun _ _ => 1)).map
        (fun r => r.constituents.map (segmentId exSegs3))) =
      [[(1, 0), (1, 1)], [(1, 1), (1, 2)]] ∧
    (1, 1) ∈ ((batchStraightSegments exSegs3 exCfg3 (fun _ _ => 1)).map
        (fun r => r.constituents.map (segmentId exSegs3))).getD 0 [] ∧
    (1, 1) ∈ ((batchStraightSegments exSegs3 exCfg3 (fun _ _ => 1)).map
        (fun r => r.constituents.map (segmentId exSegs3))).getD 1 [] := by
  refine ⟨?_, ?_, ?_⟩ <;>
    norm_num [batchStraightSegments, batchRun, batchStep, createBidirectionalBatch,
      forwardExtend, backwardExtend, createRepresentativeSegment,
      calculateBearingDifference, segmentId, exSegs3, exSeg, exCfg3,
      List.range_succ, min_def, abs_of_nonpos, abs_of_nonneg]

/-- C3 (amended). What the loop guarantees is seed-level, not full
disjointness: every batch contains its seed, and the seed of a later batch
is never among the unit segments (by `wayId`+`segmentIndex` identity)
claimed by an earlier batch — while non-seed constituents may be re-claimed
by a later batch's backward extension. -/
theorem c3_amended (segments : List StreetSegment) (config : BatchConfig)
    (dist : Point → Point → ℚ) :
    (∀ r ∈ (batchRun segments config dist).2, r.seed ∈ r.batch.constituents) ∧
    (batchRun segments config dist).2.Pairwise
      (fun r1 r2 =>
        segmentId segments r2.seed ∉ r1.batch.constituents.map (segmentId segments)) := by
  have hinv :=
    foldl_invariant (batchStep segments config dist)
      (fun st =>
        (∀ r ∈ st.2, r.seed ∈ r.batch.constituents) ∧
        (∀ r ∈ st.2, ∀ a ∈ r.batch.constituents.map (segmentId segments), a ∈ st.1) ∧
        st.2.Pairwise (fun r1 r2 =>
          segmentId segments r2.seed ∉ r1.batch.constituents.map (segmentId segments)))
      (fun st i hs => ?_) (List.range segments.length) ([], []) (by simp)
  · exact ⟨hinv.1, hinv.2.2⟩
  · simp only [batchStep]
    split
    · exact hs
    · rename_i hskip
      obtain ⟨hseed, hclaim, hpair⟩ := hs
      refine ⟨?_, ?_, ?_⟩
      · intro r hr
        rcases List.mem_append.1 hr with h1 | h1
        · exact hseed r h1
        · simp only [List.mem_singleton] at h1
          subst h1
          simp [createBidirectionalBatch]
      · intro r hr a ha
        rcases List.mem_append.1 hr with h1 | h1
        · exact List.mem_append.2 (Or.inl (hclaim r h1 a ha))
        · simp only [List.mem_singleton] at h1
          subst h1
          exact List.mem_append.2 (Or.inr ha)
      · rw [List.pairwise_append]
        refine ⟨hpair, List.pairwise_singleton .., fun r1 h1 r2 h2 => ?_⟩
        simp only [List.mem_singleton] at h2
        subst h2
        intro hcon
        exact hskip (hclaim r1 h1 _ (by simpa [createBidirectionalBatch] using hcon))

/-- C3 (witness for the amended theorem): in the overlap example, the first
recorded batch (seed 0, constituents `[0, 1]`) contains its seed. -/
theorem c3_witness :
    (0 : ℕ) ∈ (⟨[0, 1], 0, 1⟩ : Batch).constituents :=
  (c3_amended exSegs3 exCfg3 (fun _ _ => 1)).1
    ⟨0, ⟨[0, 1], 0, 1⟩, ⟨⟨0, 0⟩, ⟨0, 2⟩, 3, 1, none, 2, 1, [0, 1]⟩, true⟩
    (by norm_num [batchRun, batchStep, createBidirectionalBatch,
      forwardExtend, backwardExtend, createRepresentativeSegment,
      calculateBearingDifference, segmentId, exSegs3, exSeg, exCfg3,
      List.range_succ, min_def, abs_of_nonpos, abs_of_nonneg])

/-! ### The bounded LRU `Cache` class of `src/utils/cache.js` (C8) -/

/-- A stored cache entry `{data, timestamp}`. -/
structure CacheItem (α : Type) where
  data : α
  timestamp : ℤ
deriving DecidableEq

/-- The `Cache` class state: its bound and its backing `Map` in insertion
order (`Map` iteration order is insertion order, with `get` re-inserting at
the end). -/
structure Cache (κ α : Type) where
  maxSize : ℕ
  cache : List (κ × CacheItem α)

/-- `Cache.prototype.get`: on a hit, delete and re-`set` the entry (moving it
to the end of the insertion order, i.e. refreshing its recency) and return
its data; on a miss return `null`. Returns the value and the new state. -/
def Cache.get [DecidableEq κ] (c : Cache κ α) (key : κ) : Option α × Cache κ α :=
  match mapGet c.cache key with
  | some item =>
      (some item.data, { c with cache := mapSet (mapDelete c.cache key) key item })
  | none => (none, c)

/-- `Cache.prototype.set`: when the map is at (or beyond) `maxSize`, delete
the first key in insertion order, then store `{data, timestamp: Date.now()}`
under the key. -/
def Cache.set [DecidableEq κ] (c : Cache κ α) (key : κ) (data : α) (now : ℤ) :
    Cache κ α :=
  let afterEvict :=
    if c.maxSize ≤ c.cache.length then
      match c.cache with
      | [] => c.cache
      | (firstKey, _) :: _ => mapDelete c.cache firstKey
    else c.cache
  { c with cache := mapSet afterEvict key ⟨data, now⟩ }

/-- `Cache.prototype.has`: a present entry older than `maxAge` is deleted and
reported absent; otherwise report presence. Returns the answer and the new
state. -/
def Cache.has [DecidableEq κ] (c : Cache κ α) (key : κ) (maxAge now : ℤ) :
    Bool × Cache κ α :=
  match mapGet c.cache key with
  | none => (false, c)
  | some item =>
      if maxAge < now - item.timestamp then
        (false, { c with cache := mapDelete c.cache key })
      else (true, c)

theorem mapSet_eq_append [DecidableEq κ] (m : List (κ × α)) (k : κ) (v : α)
    (hmem : k ∉ m.map Prod.fst) : mapSet m k v = m ++ [(k, v)] := by
  induction m with
  | nil => simp [mapSet]
  | cons e rest ih =>
    obtain ⟨k2, v2⟩ := e
    simp only [List.map_cons, List.mem_cons] at hmem
    push_neg at hmem
    have hne : ¬k2 = k := fun h => hmem.1 h.symm
    simp only [mapSet, if_neg hne, List.cons_append, List.cons.injEq, true_and]
    exact ih hmem.2

/-- C8. The `Cache` class behaves as a bounded LRU store: (a) after
`set(key, value)` an immediate `get(key)` returns that value; (b) when a
fresh key is inserted with the map at capacity, the entry evicted is exactly
the head of the insertion order (the least recently inserted-or-`get`ed
entry), all other entries surviving in order with the new entry appended;
(c) a `get` hit moves the accessed entry to the tail of the order, making it
the last eviction candidate — (b) and (c) together are the LRU discipline
with recency refreshed by `get`. -/
theorem c8_cache_lru {κ α : Type} [DecidableEq κ] :
    (∀ (c : Cache κ α) (k : κ) (v : α) (now : ℤ),
      (Cache.get (Cache.set c k v now) k).1 = some v) ∧
    (∀ (c : Cache κ α) (k0 k : κ) (it0 : CacheItem α)
      (rest : List (κ × CacheItem α)) (v : α) (now : ℤ),
      c.cache = (k0, it0) :: rest →
      c.cache.length = c.maxSize →
      k ∉ c.cache.map Prod.fst →
      (Cache.set c k v now).cache = rest ++ [(k, ⟨v, now⟩)]) ∧
    (∀ (c : Cache κ α) (k : κ) (item : CacheItem α),
      (c.cache.map Prod.fst).Nodup →
      mapGet c.cache k = some item →
      (Cache.get c k).2.cache = mapDelete c.cache k ++ [(k, item)]) := by
  refine ⟨fun c k v now => ?_, fun c k0 k it0 rest v now hcache hlen hfresh => ?_,
    fun c k item hnodup hget => ?_⟩
  · simp only [Cache.get, Cache.set, mapGet_mapSet_self]
  · have hkrest : k ∉ rest.map Prod.fst := by
      rw [hcache] at hfresh
      simp only [List.map_cons, List.mem_cons] at hfresh
      push_neg at hfresh
      exact hfresh.2
    simp only [Cache.set, hcache, ← hlen, hcache, le_refl, if_pos]
    rw [show mapDelete ((k0, it0) :: rest) k0 = rest by simp [mapDelete]]
    exact mapSet_eq_append rest k ⟨v, now⟩ hkrest
  · simp only [Cache.get, hget]
    exact mapSet_eq_append (mapDelete c.cache k) k item
      (by rw [← mapGet_eq_none_iff]; exact mapGet_mapDelete_self c.cache k hnodup)

/-- C8 (witness): on a two-entry cache of capacity two, the round trip
returns `42`, inserting fresh key `5` evicts the head key `0` and keeps key
`1`, and a `get` of key `0` moves it behind key `1`. -/
theorem c8_witness :
    (Cache.get (Cache.set (⟨2, [(0, ⟨10, 0⟩), (1, ⟨11, 1⟩)]⟩ : Cache ℕ ℕ) 5 42 7) 5).1 =
      some 42 ∧
    (Cache.set (⟨2, [(0, ⟨10, 0⟩), (1, ⟨11, 1⟩)]⟩ : Cache ℕ ℕ) 5 42 7).cache =
      [(1, ⟨11, 1⟩), (5, ⟨42, 7⟩)] ∧
    (Cache.get (⟨2, [(0, ⟨10, 0⟩), (1, ⟨11, 1⟩)]⟩ : Cache ℕ ℕ) 0).2.cache =
      [(1, ⟨11, 1⟩), (0, ⟨10, 0⟩)] := by
  refine ⟨c8_cache_lru.1 _ 5 42 7, ?_, ?_⟩
  · exact c8_cache_lru.2.1 ⟨2, [(0, ⟨10, 0⟩), (1, ⟨11, 1⟩)]⟩ 0 5 ⟨10, 0⟩
      [(1, ⟨11, 1⟩)] 42 7 rfl rfl (by decide)
  · have h := c8_cache_lru.2.2 (⟨2, [(0, ⟨10, 0⟩), (1, ⟨11, 1⟩)]⟩ : Cache ℕ ℕ) 0 ⟨10, 0⟩
      (by decide) (by decide)
    rw [h]
    decide

/-! ### Alignment scorer (`HeatmapManager.calculateAlignmentScores`, C4, C9) -/

/-- A successful lookup in `mapDelete m k0` lifts to `m` (for unique keys). -/
theorem mapGet_mapDelete_sub [DecidableEq κ] (m : List (κ × α)) (k0 k' : κ)
    (item : α) (hnodup : (m.map Prod.fst).Nodup)
    (h : mapGet (mapDelete m k0) k' = some item) : mapGet m k' = some item := by
  by_cases he : k0 = k'
  · subst he
    rw [mapGet_mapDelete_self m k0 hnodup] at h
    cases h
  · rwa [mapGet_mapDelete_ne m k0 k' he] at h

/-- A street segment as consumed by the scorer: its `bearing` plus all its
other fields, which the scorer spreads unchanged (collected in `rest`). -/
structure HSegment (α : Type) where
  bearing : ℚ
  rest : α
deriving DecidableEq

/-- The enriched record `{...segment, alignmentScore, sunAzimuth}` built by
the scorer: a fresh object embedding the input segment's fields unchanged. -/
structure ScoredSegment (α : Type) where
  segment : HSegment α
  alignmentScore : ℚ
  sunAzimuth : ℚ
deriving DecidableEq

/-- The memoisation key
`` `alignment_${sunAzimuth.toFixed(4)}_${segment.bearing.toFixed(4)}` ``
as the pair of rounded values that determines the string. -/
def alignmentKey (sunAzimuth bearing : ℚ) : ℤ × ℤ :=
  (toFixed 4 sunAzimuth, toFixed 4 bearing)

/-- One iteration of the `segments.map` body of `calculateAlignmentScores`:
consult `calculationCache.has`, on a hit read the cached score via
`calculationCache.get` (the `getD 0` default is unreachable: `has` just
returned `true`), otherwise compute `calculateStreetAlignment` and store it;
then emit `{...segment, alignmentScore, sunAzimuth}`. The shared cache makes
the map a left-to-right fold over the cache state. -/
def scoreStep (sunAzimuth : ℚ) (now : ℤ)
    (st : List (ScoredSegment α) × Cache (ℤ × ℤ) ℚ) (segment : HSegment α) :
    List (ScoredSegment α) × Cache (ℤ × ℤ) ℚ :=
  let segmentCacheKey := alignmentKey sunAzimuth segment.bearing
  let hasRes := Cache.has st.2 segmentCacheKey 300000 now
  if hasRes.1 then
    let getRes := Cache.get hasRes.2 segmentCacheKey
    (st.1 ++ [⟨segment, getRes.1.getD 0, sunAzimuth⟩], getRes.2)
  else
    let alignmentScore := calculateStreetAlignment segment.bearing sunAzimuth
    (st.1 ++ [⟨segment, alignmentScore, sunAzimuth⟩],
      Cache.set hasRes.2 segmentCacheKey alignmentScore now)

/-- `calculateAlignmentScores` from `src/modules/heatmap.js`, threading the
module-level `calculationCache` explicitly and with `Date.now()` as `now`. -/
def calculateAlignmentScores (segments : List (HSegment α)) (sunAzimuth : ℚ)
    (now : ℤ) (calculationCache : Cache (ℤ × ℤ) ℚ) :
    List (ScoredSegment α) × Cache (ℤ × ℤ) ℚ :=
  segments.foldl (scoreStep sunAzimuth now) ([], calculationCache)

/-- Each scorer step appends one enriched record embedding the input segment
and the current sun azimuth. -/
theorem scoreStep_fst {α : Type} (sunAzimuth : ℚ) (now : ℤ)
    (st : List (ScoredSegment α) × Cache (ℤ × ℤ) ℚ) (s : HSegment α) :
    (scoreStep sunAzimuth now st s).1.map (fun x => x.segment) =
      st.1.map (fun x => x.segment) ++ [s] ∧
    (scoreStep sunAzimuth now st s).1.map (fun x => x.sunAzimuth) =
      st.1.map (fun x => x.sunAzimuth) ++ [sunAzimuth] := by
  simp only [scoreStep]
  split <;> simp

/-- C9. Scoring is append-only enrichment: the output has the same length
and order as the input, every output record embeds its input segment with
all fields unchanged, and every output record carries the queried sun
azimuth. (Input segments are plain immutable values in this model, matching
the fresh `{...segment}` object the code builds.) -/
theorem c9_scoring_is_enrichment {α : Type} (segments : List (HSegment α))
    (sunAzimuth : ℚ) (now : ℤ) (calculationCache : Cache (ℤ × ℤ) ℚ) :
    (calculateAlignmentScores segments sunAzimuth now calculationCache).1.map
        (fun x => x.segment) = segments ∧
    (calculateAlignmentScores segments sunAzimuth now calculationCache).1.length =
      segments.length ∧
    (calculateAlignmentScores segments sunAzimuth now calculationCache).1.map
        (fun x => x.sunAzimuth) = segments.map (fun _ => sunAzimuth) := by
  suffices h : ∀ (l : List (HSegment α)) (acc : List (ScoredSegment α))
      (cache : Cache (ℤ × ℤ) ℚ),
      (l.foldl (scoreStep sunAzimuth now) (acc, cache)).1.map (fun x => x.segment) =
        acc.map (fun x => x.segment) ++ l ∧
      (l.foldl (scoreStep sunAzimuth now) (acc, cache)).1.map (fun x => x.sunAzimuth) =
        acc.map (fun x => x.sunAzimuth) ++ l.map (fun _ => sunAzimuth) by
    obtain ⟨h1, h2⟩ := h segments [] calculationCache
    refine ⟨by simpa using h1, ?_, by simpa using h2⟩
    have := congrArg List.length h1
    simpa [calculateAlignmentScores] using this
  intro l
  induction l with
  | nil => intro acc cache; simp
  | cons s rest ih =>
    intro acc cache
    simp only [List.foldl_cons]
    obtain ⟨h1, h2⟩ := scoreStep_fst sunAzimuth now (acc, cache) s
    rw [← Prod.mk.eta (p := scoreStep sunAzimuth now (acc, cache) s)]
    obtain ⟨ih1, ih2⟩ :=
      ih (scoreStep sunAzimuth now (acc, cache) s).1
        (scoreStep sunAzimuth now (acc, cache) s).2
    constructor
    · rw [ih1, h1]
      simp
    · rw [ih2, h2]
      simp

/-- C4 (counterexample). Memoisation is not transparent: starting from the
empty cache, bearings `0` and `1/100000` both round to the `0.0000` key
component, so the second segment reads the first segment's cached score `1`
although its direct computation is `1 - 1/9000000 ≠ 1`. -/
theorem c4_counterexample :
    (calculateAlignmentScores ([⟨0, 0⟩, ⟨1/100000, 1⟩] : List (HSegment ℕ))
        0 0 ⟨100, []⟩).1.map (fun x => x.alignmentScore) = [1, 1] ∧
    calculateStreetAlignment (1/100000) 0 ≠ 1 := by
  constructor
  · norm_num [calculateAlignmentScores, scoreStep, Cache.has, Cache.get, Cache.set,
      mapGet, mapSet, mapDelete, alignmentKey, toFixed, round_eq,
      calculateStreetAlignment, min_def, abs_of_nonpos, abs_of_nonneg]
  · norm_num [calculateStreetAlignment, min_def, abs_of_nonpos, abs_of_nonneg]

/-- Reading the `Cache.set` result: the stored key holds the fresh item. -/
theorem cacheSet_get_self [DecidableEq κ] (c : Cache κ α) (key : κ) (v : α) (now : ℤ) :
    mapGet (Cache.set c key v now).cache key = some ⟨v, now⟩ := by
  simp only [Cache.set]
  exact mapGet_mapSet_self ..

/-- Reading the `Cache.set` result at another key: a hit lifts to the prior
state (for unique keys; eviction and update only remove or shadow). -/
theorem cacheSet_get_ne [DecidableEq κ] (c : Cache κ α) (key k' : κ) (v : α)
    (now : ℤ) (hne : k' ≠ key) (hnodup : (c.cache.map Prod.fst).Nodup)
    (item' : CacheItem α)
    (h : mapGet (Cache.set c key v now).cache k' = some item') :
    mapGet c.cache k' = some item' := by
  simp only [Cache.set] at h
  rw [mapGet_mapSet_ne _ _ _ _ (fun he => hne he.symm)] at h
  revert h
  split
  · split
    · exact fun h => h
    · exact fun h => mapGet_mapDelete_sub _ _ _ _ hnodup h
  · exact fun h => h

/-- `Cache.set` preserves key uniqueness. -/
theorem cacheSet_nodup [DecidableEq κ] (c : Cache κ α) (key : κ) (v : α) (now : ℤ)
    (hnodup : (c.cache.map Prod.fst).Nodup) :
    ((Cache.set c key v now).cache.map Prod.fst).Nodup := by
  simp only [Cache.set]
  apply nodupKeys_mapSet
  split
  · split
    · exact hnodup
    · exact nodupKeys_mapDelete _ _ hnodup
  · exact hnodup

/-- The core induction for the amended C4: as long as every live (unexpired)
cache entry at a key of interest stores the direct score of any segment with
that key, the scorer emits direct scores and preserves that coherence. -/
theorem scoreRun_correct {α : Type} (sunAzimuth : ℚ) (now : ℤ) :
    ∀ (l : List (HSegment α)) (acc : List (ScoredSegment α))
      (cache : Cache (ℤ × ℤ) ℚ),
      (cache.cache.map Prod.fst).Nodup →
      (∀ s ∈ l, ∀ item,
        mapGet cache.cache (alignmentKey sunAzimuth s.bearing) = some item →
        now - item.timestamp ≤ 300000 →
        item.data = calculateStreetAlignment s.bearing sunAzimuth) →
      (∀ s ∈ l, ∀ t ∈ l,
        alignmentKey sunAzimuth s.bearing = alignmentKey sunAzimuth t.bearing →
        calculateStreetAlignment s.bearing sunAzimuth =
          calculateStreetAlignment t.bearing sunAzimuth) →
      (l.foldl (scoreStep sunAzimuth now) (acc, cache)).1 =
        acc ++ l.map (fun s =>
          ⟨s, calculateStreetAlignment s.bearing sunAzimuth, sunAzimuth⟩) := by
  intro l
  induction l with
  | nil => intro acc cache _ _ _; simp
  | cons s rest ih =>
    intro acc cache hnodup hlive hcoh
    have hcoh' : ∀ a ∈ rest, ∀ b ∈ rest,
        alignmentKey sunAzimuth a.bearing = alignmentKey sunAzimuth b.bearing →
        calculateStreetAlignment a.bearing sunAzimuth =
          calculateStreetAlignment b.bearing sunAzimuth :=
      fun a ha b hb => hcoh a (List.mem_cons_of_mem s ha) b (List.mem_cons_of_mem s hb)
    have hs_mem : s ∈ s :: rest := List.mem_cons_self s rest
    simp only [List.foldl_cons, List.map_cons]
    rcases hmg : mapGet cache.cache (alignmentKey sunAzimuth s.bearing) with - | item
    · -- miss: compute directly and store
      have hstep : scoreStep sunAzimuth now (acc, cache) s =
          (acc ++ [⟨s, calculateStreetAlignment s.bearing sunAzimuth, sunAzimuth⟩],
            Cache.set cache (alignmentKey sunAzimuth s.bearing)
              (calculateStreetAlignment s.bearing sunAzimuth) now) := by
        simp only [scoreStep, Cache.has, hmg]
        exact if_neg (by simp)
      rw [hstep, ih _ _ (cacheSet_nodup _ _ _ _ hnodup) ?live hcoh']
      · simp
      case live =>
        intro t ht item2 hget2 hfresh2
        by_cases hkey : alignmentKey sunAzimuth t.bearing =
            alignmentKey sunAzimuth s.bearing
        · rw [hkey, cacheSet_get_self, Option.some.injEq] at hget2
          subst hget2
          exact hcoh s hs_mem t (List.mem_cons_of_mem s ht) hkey.symm
        · exact hlive t (List.mem_cons_of_mem s ht) item2
            (cacheSet_get_ne _ _ _ _ _ hkey hnodup item2 hget2) hfresh2
    · by_cases hexp : (300000:ℤ) < now - item.timestamp
      · -- present but expired: `has` deletes it, then compute and store
        have hstep : scoreStep sunAzimuth now (acc, cache) s =
            (acc ++ [⟨s, calculateStreetAlignment s.bearing sunAzimuth, sunAzimuth⟩],
              Cache.set
                ⟨cache.maxSize,
                  mapDelete cache.cache (alignmentKey sunAzimuth s.bearing)⟩
                (alignmentKey sunAzimuth s.bearing)
                (calculateStreetAlignment s.bearing sunAzimuth) now) := by
          simp only [scoreStep, Cache.has, hmg, if_pos hexp]
          exact if_neg (by simp)
        have hnodup2 : (((⟨cache.maxSize,
            mapDelete cache.cache (alignmentKey sunAzimuth s.bearing)⟩ :
              Cache (ℤ × ℤ) ℚ)).cache.map Prod.fst).Nodup :=
          nodupKeys_mapDelete _ _ hnodup
        rw [hstep, ih _ _ (cacheSet_nodup _ _ _ _ hnodup2) ?live2 hcoh']
        · simp
        case live2 =>
          intro t ht item2 hget2 hfresh2
          by_cases hkey : alignmentKey sunAzimuth t.bearing =
              alignmentKey sunAzimuth s.bearing
          · rw [hkey, cacheSet_get_self, Option.some.injEq] at hget2
            subst hget2
            exact hcoh s hs_mem t (List.mem_cons_of_mem s ht) hkey.symm
          · have h3 := cacheSet_get_ne _ _ _ _ _ hkey hnodup2 item2 hget2
            exact hlive t (List.mem_cons_of_mem s ht) item2
              (mapGet_mapDelete_sub _ _ _ _ hnodup h3) hfresh2
      · -- live hit: the cached value is read back and is the direct score
        have hdata : item.data = calculateStreetAlignment s.bearing sunAzimuth :=
          hlive s hs_mem item hmg (le_of_not_lt hexp)
        have hstep : scoreStep sunAzimuth now (acc, cache) s =
            (acc ++ [⟨s, item.data, sunAzimuth⟩],
              ⟨cache.maxSize,
                mapSet (mapDelete cache.cache (alignmentKey sunAzimuth s.bearing))
                  (alignmentKey sunAzimuth s.bearing) item⟩) := by
          simp only [scoreStep, Cache.has, hmg, if_neg hexp, Cache.get, hmg]
          simp
        have hnodup3 :
            ((mapSet (mapDelete cache.cache (alignmentKey sunAzimuth s.bearing))
              (alignmentKey sunAzimuth s.bearing) item).map Prod.fst).Nodup :=
          nodupKeys_mapSet _ _ _ (nodupKeys_mapDelete _ _ hnodup)
        rw [hstep, hdata, ih _ _ hnodup3 ?live3 hcoh']
        · simp
        case live3 =>
          intro t ht item2 hget2 hfresh2
          by_cases hkey : alignmentKey sunAzimuth t.bearing =
              alignmentKey sunAzimuth s.bearing
          · rw [hkey] at hget2
            simp only [mapGet_mapSet_self, Option.some.injEq] at hget2
            subst hget2
            rw [hdata]
            exact hcoh s hs_mem t (List.mem_cons_of_mem s ht) hkey.symm
          · simp only [mapGet_mapSet_ne _ _ _ _ (fun he => hkey he.symm)] at hget2
            exact hlive t (List.mem_cons_of_mem s ht) item2
              (mapGet_mapDelete_sub _ _ _ _ hnodup hget2) hfresh2

/-- C4 (amended). Memoisation is transparent only up to the rounded cache
key: for every prior cache state with unique keys in which every live entry
at a queried key already stores the direct score (in particular when no
queried key is live, e.g. the empty cache), and in which segments whose
bearings collide at 4-decimal rounding have equal direct scores, every
returned segment carries `alignmentScore = calculateStreetAlignment(bearing,
sunAzimuth)`. Without these provisos the cached path can return a stale
value for a different bearing that rounds to the same key. -/
theorem c4_amended {α : Type} (segments : List (HSegment α)) (sunAzimuth : ℚ)
    (now : ℤ) (calculationCache : Cache (ℤ × ℤ) ℚ)
    (hwf : (calculationCache.cache.map Prod.fst).Nodup)
    (hlive : ∀ s ∈ segments, ∀ item,
      mapGet calculationCache.cache (alignmentKey sunAzimuth s.bearing) = some item →
      now - item.timestamp ≤ 300000 →
      item.data = calculateStreetAlignment s.bearing sunAzimuth)
    (hcoh : ∀ s ∈ segments, ∀ t ∈ segments,
      alignmentKey sunAzimuth s.bearing = alignmentKey sunAzimuth t.bearing →
      calculateStreetAlignment s.bearing sunAzimuth =
        calculateStreetAlignment t.bearing sunAzimuth) :
    (calculateAlignmentScores segments sunAzimuth now calculationCache).1 =
      segments.map (fun s =>
        ⟨s, calculateStreetAlignment s.bearing sunAzimuth, sunAzimuth⟩) := by
  have := scoreRun_correct sunAzimuth now segments [] calculationCache hwf hlive hcoh
  simpa [calculateAlignmentScores] using this

/-- C4 (witness for the amended theorem): two segments of equal bearing on
the empty cache both come back with the direct score. -/
theorem c4_witness :
    (calculateAlignmentScores ([⟨0, 0⟩, ⟨0, 1⟩] : List (HSegment ℕ)) 0 0 ⟨100, []⟩).1 =
      ([⟨0, 0⟩, ⟨0, 1⟩] : List (HSegment ℕ)).map (fun s =>
        ⟨s, calculateStreetAlignment s.bearing 0, 0⟩) := by
  apply c4_amended
  · simp
  · intro s hs item h
    simp [mapGet] at h
  · intro s hs t ht hk
    fin_cases hs <;> fin_cases ht <;> rfl

/-! ### Solar boundary (`SolarCalculator.getSunAzimuth`, C10) -/

/-- A SunCalc position result (only `azimuth` is consumed here). -/
structure SunPosition where
  azimuth : ℚ
  altitude : ℚ

/-- A SunCalc `getTimes` result; `none` models a missing target time or one
whose `getTime()` is `NaN` (the `!targetTime || isNaN(...)` test). -/
structure SunTimes (τ : Type) where
  sunrise : Option τ
  sunset : Option τ

/-- The external SunCalc library as an oracle, over abstract date (`δ`) and
time (`τ`) types: `getTimes`/`getPosition` returning `none` models a thrown
exception, `noonOf` is `new Date(date)` with hours set to `12:00:00.000`, and
`toDateString` abstracts `date.toDateString()` (an injective encoding of the
calendar day). -/
structure SunCalcLib (δ τ : Type) where
  getTimes : δ → ℚ → ℚ → Option (SunTimes τ)
  getPosition : τ → ℚ → ℚ → Option SunPosition
  noonOf : δ → τ
  toDateString : δ → ℕ

/-- The two `while` loops of `normalizeAzimuth` (`+= 360` while negative,
`-= 360` while `≥ 360`): on a finite value they compute the unique
representative of `degrees` modulo 360 in `[0, 360)`. -/
def wrap360 (degrees : ℚ) : ℚ := degrees - 360 * ⌊degrees / 360⌋

/-- `normalizeAzimuth` from `src/modules/solar.js`: radians to degrees (the
irrational factor `180/π` is abstracted as the parameter `degPerRad`), shift
from south-based to north-based by `+180`, then wrap into `[0, 360)`. -/
def normalizeAzimuth (degPerRad azimuth : ℚ) : ℚ :=
  wrap360 (azimuth * degPerRad + 180)

/-- `getSunAzimuth` from `src/modules/solar.js`: consult the per-instance
cache; otherwise compute the sun times (errors caught to the default `180`),
fall back to the noon position when the target time is missing/invalid
(early return, not cached), and in the main path cache and return the
normalised azimuth at the target time. -/
def getSunAzimuth {δ τ : Type} (lib : SunCalcLib δ τ) (degPerRad : ℚ)
    (cache : List ((ℕ × ℤ × ℤ × Bool) × ℚ)) (date : δ) (lat lng : ℚ)
    (isSunrise : Bool) : ℚ × List ((ℕ × ℤ × ℤ × Bool) × ℚ) :=
  let cacheKey := (lib.toDateString date, toFixed 4 lat, toFixed 4 lng, isSunrise)
  match mapGet cache cacheKey with
  | some v => (v, cache)
  | none =>
    match lib.getTimes date lat lng with
    | none => (180, cache)
    | some times =>
      match (if isSunrise then times.sunrise else times.sunset) with
      | none =>
        match lib.getPosition (lib.noonOf date) lat lng with
        | none => (180, cache)
        | some position => (normalizeAzimuth degPerRad position.azimuth, cache)
      | some targetTime =>
        match lib.getPosition targetTime lat lng with
        | none => (180, cache)
        | some position =>
          let azimuth := normalizeAzimuth degPerRad position.azimuth
          (azimuth, mapSet cache cacheKey azimuth)

/-- The wrapped degree value lies in `[0, 360)`. -/
theorem wrap360_mem (d : ℚ) : 0 ≤ wrap360 d ∧ wrap360 d < 360 := by
  unfold wrap360
  constructor
  · have h := Int.floor_le (d / 360)
    have h2 := mul_le_mul_of_nonneg_right h (by norm_num : (0:ℚ) ≤ 360)
    rw [div_mul_cancel₀ d (by norm_num : (360:ℚ) ≠ 0)] at h2
    linarith
  · have h := Int.lt_floor_add_one (d / 360)
    have h2 := mul_lt_mul_of_pos_right h (by norm_num : (0:ℚ) < 360)
    rw [div_mul_cancel₀ d (by norm_num : (360:ℚ) ≠ 0)] at h2
    linarith

/-- C10. `getSunAzimuth` is total at its boundary: for every oracle
behaviour it returns a number in `[0, 360)` (given that the private cache —
populated only by this method — holds values in range), the cache-range
invariant is preserved, a throwing `getTimes` yields the fallback `180`, and
an invalid/missing target time yields the noon-position azimuth (or `180` if
that computation throws in turn); no path signals "no data". -/
theorem c10_get_sun_azimuth_total {δ τ : Type} (lib : SunCalcLib δ τ)
    (degPerRad : ℚ) (cache : List ((ℕ × ℤ × ℤ × Bool) × ℚ)) (date : δ)
    (lat lng : ℚ) (isSunrise : Bool)
    (hcache : ∀ k v, mapGet cache k = some v → 0 ≤ v ∧ v < 360) :
    (0 ≤ (getSunAzimuth lib degPerRad cache date lat lng isSunrise).1 ∧
      (getSunAzimuth lib degPerRad cache date lat lng isSunrise).1 < 360) ∧
    (∀ k v,
      mapGet (getSunAzimuth lib degPerRad cache date lat lng isSunrise).2 k = some v →
      0 ≤ v ∧ v < 360) ∧
    (mapGet cache (lib.toDateString date, toFixed 4 lat, toFixed 4 lng, isSunrise) =
        none →
      lib.getTimes date lat lng = none →
      (getSunAzimuth lib degPerRad cache date lat lng isSunrise).1 = 180) ∧
    (∀ times,
      mapGet cache (lib.toDateString date, toFixed 4 lat, toFixed 4 lng, isSunrise) =
        none →
      lib.getTimes date lat lng = some times →
      (if isSunrise then times.sunrise else times.sunset) = none →
      (lib.getPosition (lib.noonOf date) lat lng = none →
        (getSunAzimuth lib degPerRad cache date lat lng isSunrise).1 = 180) ∧
      (∀ position, lib.getPosition (lib.noonOf date) lat lng = some position →
        (getSunAzimuth lib degPerRad cache date lat lng isSunrise).1 =
          normalizeAzimuth degPerRad position.azimuth)) := by
  rcases hmg : mapGet cache
      (lib.toDateString date, toFixed 4 lat, toFixed 4 lng, isSunrise) with - | v
  · rcases htimes : lib.getTimes date lat lng with - | times
    · -- `getTimes` throws: catch returns 180
      have hres : getSunAzimuth lib degPerRad cache date lat lng isSunrise =
          (180, cache) := by
        simp only [getSunAzimuth, hmg, htimes]
      refine ⟨by rw [hres]; norm_num,
        fun k v2 hk => hcache k v2 (by simpa only [hres] using hk),
        fun _ _ => by rw [hres],
        fun times2 _ htimes2 _ => Option.noConfusion htimes2⟩
    · rcases htarget : (if isSunrise then times.sunrise else times.sunset) with
        - | targetTime
      · rcases hpos : lib.getPosition (lib.noonOf date) lat lng with - | position
        · -- invalid target time, and the noon computation throws in turn
          have hres : getSunAzimuth lib degPerRad cache date lat lng isSunrise =
              (180, cache) := by
            simp only [getSunAzimuth, hmg, htimes, htarget, hpos]
          refine ⟨by rw [hres]; norm_num,
            fun k v2 hk => hcache k v2 (by simpa only [hres] using hk),
            fun _ htn => Option.noConfusion htn,
            fun times2 _ htimes2 _ => ?_⟩
          obtain rfl : times = times2 := by injection htimes2
          exact ⟨fun _ => by rw [hres], fun p hp => Option.noConfusion hp⟩
        · -- invalid target time: early return of the noon-position azimuth
          have hres : getSunAzimuth lib degPerRad cache date lat lng isSunrise =
              (normalizeAzimuth degPerRad position.azimuth, cache) := by
            simp only [getSunAzimuth, hmg, htimes, htarget, hpos]
          refine ⟨by rw [hres]; exact wrap360_mem _,
            fun k v2 hk => hcache k v2 (by simpa only [hres] using hk),
            fun _ htn => Option.noConfusion htn,
            fun times2 _ htimes2 _ => ?_⟩
          obtain rfl : times = times2 := by injection htimes2
          refine ⟨fun hp => Option.noConfusion hp, fun p hp => ?_⟩
          obtain rfl : position = p := by injection hp
          rw [hres]
      · rcases hpos : lib.getPosition targetTime lat lng with - | position
        · -- `getPosition` at the target time throws: catch returns 180
          have hres : getSunAzimuth lib degPerRad cache date lat lng isSunrise =
              (180, cache) := by
            simp only [getSunAzimuth, hmg, htimes, htarget, hpos]
          refine ⟨by rw [hres]; norm_num,
            fun k v2 hk => hcache k v2 (by simpa only [hres] using hk),
            fun _ htn => Option.noConfusion htn,
            fun times2 _ htimes2 htarget2 => ?_⟩
          obtain rfl : times = times2 := by injection htimes2
          rw [htarget] at htarget2
          exact Option.noConfusion htarget2
        · -- main path: normalise, cache and return
          have hres : getSunAzimuth lib degPerRad cache date lat lng isSunrise =
              (normalizeAzimuth degPerRad position.azimuth,
                mapSet cache
                  (lib.toDateString date, toFixed 4 lat, toFixed 4 lng, isSunrise)
                  (normalizeAzimuth degPerRad position.azimuth)) := by
            simp only [getSunAzimuth, hmg, htimes, htarget, hpos]
          refine ⟨by rw [hres]; exact wrap360_mem _, ?_,
            fun _ htn => Option.noConfusion htn,
            fun times2 _ htimes2 htarget2 => ?_⟩
          · intro k v2 hk
            rw [hres] at hk
            by_cases hkey :
                k = (lib.toDateString date, toFixed 4 lat, toFixed 4 lng, isSunrise)
            · subst hkey
              rw [mapGet_mapSet_self, Option.some.injEq] at hk
              rw [← hk]
              exact wrap360_mem _
            · rw [mapGet_mapSet_ne _ _ _ _ (fun he => hkey he.symm)] at hk
              exact hcache k v2 hk
          · obtain rfl : times = times2 := by injection htimes2
            rw [htarget] at htarget2
            exact Option.noConfusion htarget2
  · -- cache hit: the cached (in-range) azimuth is returned unchanged
    have hres : getSunAzimuth lib degPerRad cache date lat lng isSunrise =
        (v, cache) := by
      simp only [getSunAzimuth, hmg]
    refine ⟨by rw [hres]; exact hcache _ _ hmg,
      fun k v2 hk => hcache k v2 (by simpa only [hres] using hk),
      fun hmiss _ => Option.noConfusion hmiss,
      fun times2 hmiss _ _ => Option.noConfusion hmiss⟩

/-- C10 (witness): with a library whose `getTimes` always throws and the
empty cache, the call returns the in-range fallback `180`. -/
theorem c10_witness :
    (0 ≤ (getSunAzimuth
        (⟨fun _ _ _ => none, fun _ _ _ => none, id, id⟩ : SunCalcLib ℕ ℕ)
        57 [] 1 0 0 true).1 ∧
      (getSunAzimuth
        (⟨fun _ _ _ => none, fun _ _ _ => none, id, id⟩ : SunCalcLib ℕ ℕ)
        57 [] 1 0 0 true).1 < 360) ∧
    (getSunAzimuth (⟨fun _ _ _ => none, fun _ _ _ => none, id, id⟩ : SunCalcLib ℕ ℕ)
      57 [] 1 0 0 true).1 = 180 := by
  have h := c10_get_sun_azimuth_total
    (⟨fun _ _ _ => none, fun _ _ _ => none, id, id⟩ : SunCalcLib ℕ ℕ)
    57 [] 1 0 0 true (fun k v hk => by simp [mapGet] at hk)
  exact ⟨h.1, h.2.2.1 rfl rfl⟩

end SunMap
